import Mathlib

/-!
Shallow embedding of `src/lib/classes/many_to_many.py`: three entity kinds
(Author, Magazine, Article) linked many-to-many through Articles, with
bidirectional back-reference lists kept consistent by the Article
constructor and the author/magazine setters.

Python objects live on a heap; the embedding models the heap as three
id-indexed partial maps (one per class) inside a `State`, together with the
two class-level registries `Article.all` and `Magazine.all` (lists of ids in
construction order) and a fresh-id counter. A Python reference to an object
is an id into the corresponding map. Each Python method becomes a Lean
function; a method that can raise returns `Except Err α × State`, the second
component being the post-state (so a raise happening after a partial
mutation is representable, and atomicity of validation-then-mutation is a
provable statement, not a modelling assumption).

Python values that may fail an `isinstance(_, str)` check are modelled by
`PyVal`, which is either a string or one of a few non-string shapes.
-/

/-- A Python value as seen by the validators: either a string or a
non-string value (the concrete non-string shapes only matter so that
counterexamples can name one). -/
inductive PyVal where
  | str (s : String)
  | intVal (n : Int)
  | noneVal
  | boolVal (b : Bool)
deriving Repr, DecidableEq

/-- PyVal.isStr mirrors `isinstance(value, str)`. -/
def PyVal.isStr : PyVal → Bool
  | .str _ => true
  | _ => false

/-- Error kinds of the module, abstracting the exceptions the source raises:
`ValueError` from the validators (`validation`), the bare `Exception` of the
immutable-field setters (`immutableField`), `AttributeError` from setting an
attribute on an object that does not support attribute assignment
(`attributeError`), and `badRef`, an artifact of the id encoding marking an
operation on a dangling id, which has no Python counterpart (a Python caller
always holds a real object reference). -/
inductive Err where
  | validation
  | immutableField
  | attributeError
  | badRef
deriving Repr, DecidableEq

/-- Title validator of `Article.__init__`:
`isinstance(title, str) and 5 <= len(title) <= 50`
(the source tests the negation and raises ValueError). -/
def validTitle : PyVal → Bool
  | .str t => 5 ≤ t.length && t.length ≤ 50
  | _ => false

/-- Name validator of `Author.__init__`: a non-empty string. -/
def validAuthorName : PyVal → Bool
  | .str n => n.length != 0
  | _ => false

/-- Name validator of `Magazine.__init__` and the `Magazine.name` setter:
a string of length 2 to 16. -/
def validMagazineName : PyVal → Bool
  | .str n => 2 ≤ n.length && n.length ≤ 16
  | _ => false

/-- Category validator of `Magazine.__init__` and the `Magazine.category`
setter: a non-empty string. -/
def validCategory : PyVal → Bool
  | .str c => c.length != 0
  | _ => false

/-- An Author object: `_name` and the `_articles` back-reference list
(article ids), which `Author.__init__` creates empty. -/
structure Author where
  name : String
  articles : List Nat
deriving Repr, DecidableEq

/-- A Magazine object: `_name`, `_category` and the `_articles`
back-reference list (article ids). -/
structure Magazine where
  name : String
  category : String
  articles : List Nat
deriving Repr, DecidableEq

/-- An Article object: `_title` plus the `_author` and `_magazine`
references (ids into the heap maps). -/
structure Article where
  title : String
  author : Nat
  magazine : Nat
deriving Repr, DecidableEq

/-- The whole mutable state: the three heaps, the class-level registries
`Article.all` and `Magazine.all` (construction order), and the fresh-id
counter. All ids in use are below `nextId`. -/
structure State where
  authors : Nat → Option Author
  magazines : Nat → Option Magazine
  articles : Nat → Option Article
  articleAll : List Nat
  magazineAll : List Nat
  nextId : Nat

/-- The empty initial state: no objects yet, both registries empty. -/
def initState : State where
  authors := fun _ => none
  magazines := fun _ => none
  articles := fun _ => none
  articleAll := []
  magazineAll := []
  nextId := 0

/-- Heap write of an Author object at an id. -/
def putAuthor (s : State) (i : Nat) (a : Author) : State :=
  { s with authors := fun j => if j = i then some a else s.authors j }

/-- Heap write of a Magazine object at an id. -/
def putMagazine (s : State) (i : Nat) (m : Magazine) : State :=
  { s with magazines := fun j => if j = i then some m else s.magazines j }

/-- Heap write of an Article object at an id. -/
def putArticle (s : State) (i : Nat) (a : Article) : State :=
  { s with articles := fun j => if j = i then some a else s.articles j }

/-- Append an article id to the `_articles` list of the author at id `aid`
(no-op on a dangling id, which has no Python counterpart). -/
def authorAppend (s : State) (aid artid : Nat) : State :=
  match s.authors aid with
  | some a => putAuthor s aid { a with articles := a.articles ++ [artid] }
  | none => s

/-- Append an article id to the `_articles` list of the magazine at id
`mid` (no-op on a dangling id). -/
def magazineAppend (s : State) (mid artid : Nat) : State :=
  match s.magazines mid with
  | some m => putMagazine s mid { m with articles := m.articles ++ [artid] }
  | none => s

/-- The removal step of the author setter:
`if self._author and self in self._author._articles: self._author._articles.remove(self)`.
A real Author object is always truthy, so the truthiness test is the
existence of the referenced object; `list.remove` drops the first
occurrence, which `List.erase` mirrors. -/
def authorRemoveIfPresent (s : State) (aid artid : Nat) : State :=
  match s.authors aid with
  | some a =>
      if artid ∈ a.articles then
        putAuthor s aid { a with articles := a.articles.erase artid }
      else s
  | none => s

/-- The removal step of the magazine setter, symmetric to
`authorRemoveIfPresent`. -/
def magazineRemoveIfPresent (s : State) (mid artid : Nat) : State :=
  match s.magazines mid with
  | some m =>
      if artid ∈ m.articles then
        putMagazine s mid { m with articles := m.articles.erase artid }
      else s
  | none => s

/-- Author.__init__: validate the name (non-empty string, else ValueError),
then store `_name` and an empty `_articles` list. There is no Author
registry in the source. Returns the id of the new object. -/
def Author.init (s : State) (name : PyVal) : Except Err Nat × State :=
  if validAuthorName name then
    match name with
    | .str n =>
        let i := s.nextId
        (.ok i, { putAuthor s i { name := n, articles := [] } with nextId := i + 1 })
    | _ => (.error .validation, s)
  else (.error .validation, s)

/-- Magazine.__init__: validate name (string of length 2 to 16) and
category (non-empty string), store the fields and an empty `_articles`
list, and append the new object to `Magazine.all`. -/
def Magazine.init (s : State) (name category : PyVal) : Except Err Nat × State :=
  if validMagazineName name then
    if validCategory category then
      match name, category with
      | .str n, .str c =>
          let i := s.nextId
          let s1 := putMagazine s i { name := n, category := c, articles := [] }
          (.ok i, { s1 with magazineAll := s1.magazineAll ++ [i], nextId := i + 1 })
      | _, _ => (.error .validation, s)
    else (.error .validation, s)
  else (.error .validation, s)

/-- Article.__init__ on real Author and Magazine references: validate the
title (string of length 5 to 50, else ValueError, raised before any
mutation), then store `_title`, `_author`, `_magazine`, append the new
object to `Article.all`, and append it to the `_articles` lists of the
author and the magazine. `Author.__init__` and `Magazine.__init__` always
create `_articles`, so for real owners the `hasattr` guard of the source is
always true and the append is unconditional; owners that are not Author or
Magazine instances are modelled separately by `Article.initRaw`. The two
owner references are looked up before mutating: a dangling id cannot arise
from Python code (a caller passes objects it holds), so `badRef` marks an
op outside the Python-expressible ones, leaving the state unchanged. -/
def Article.init (s : State) (author magazine : Nat) (title : PyVal) :
    Except Err Nat × State :=
  match title with
  | .str t =>
      if 5 ≤ t.length && t.length ≤ 50 then
        match s.authors author, s.magazines magazine with
        | some _, some _ =>
            let i := s.nextId
            let s1 := putArticle s i { title := t, author := author, magazine := magazine }
            let s2 := { s1 with articleAll := s1.articleAll ++ [i], nextId := i + 1 }
            let s3 := authorAppend s2 author i
            (.ok i, magazineAppend s3 magazine i)
        | _, _ => (.error .badRef, s)
      else (.error .validation, s)
  | _ => (.error .validation, s)

/-- Author.add_article: a convenience wrapper that calls
`Article(self, magazine, title)` and returns the new article. -/
def Author.add_article (s : State) (authorId magazine : Nat) (title : PyVal) :
    Except Err Nat × State :=
  Article.init s authorId magazine title

/-- Title setter of Article: unconditionally raises
(`Title cannot be changed after instantiation`), before touching anything. -/
def Article.setTitle (s : State) (_artid : Nat) (_v : PyVal) :
    Except Err Unit × State :=
  (.error .immutableField, s)

/-- Name setter of Author: unconditionally raises
(`Name cannot be changed after instantiation`). -/
def Author.setName (s : State) (_aid : Nat) (_v : PyVal) :
    Except Err Unit × State :=
  (.error .immutableField, s)

/-- Author setter of Article: `isinstance(value, Author)` check (ValueError
when the value is not an Author, modelled as the id not referencing an
Author object), then remove self from the list of the previous author when
present, set `_author`, and append self to the list of the new author. The
append reads the heap after the removal, so the aliasing case
new author = old author behaves as in Python. -/
def Article.setAuthor (s : State) (artid v : Nat) : Except Err Unit × State :=
  match s.articles artid with
  | none => (.error .badRef, s)
  | some art =>
      match s.authors v with
      | none => (.error .validation, s)
      | some _ =>
          let s1 := authorRemoveIfPresent s art.author artid
          let s2 := putArticle s1 artid { art with author := v }
          (.ok (), authorAppend s2 v artid)

/-- Magazine setter of Article, symmetric to the author setter: isinstance
check against Magazine, removal from the previous magazine, store, append
to the new magazine. -/
def Article.setMagazine (s : State) (artid v : Nat) : Except Err Unit × State :=
  match s.articles artid with
  | none => (.error .badRef, s)
  | some art =>
      match s.magazines v with
      | none => (.error .validation, s)
      | some _ =>
          let s1 := magazineRemoveIfPresent s art.magazine artid
          let s2 := putArticle s1 artid { art with magazine := v }
          (.ok (), magazineAppend s2 v artid)

/-- Name setter of Magazine: revalidates (string of length 2 to 16) and
stores. -/
def Magazine.setName (s : State) (mid : Nat) (v : PyVal) : Except Err Unit × State :=
  match s.magazines mid with
  | none => (.error .badRef, s)
  | some m =>
      match v with
      | .str n =>
          if 2 ≤ n.length && n.length ≤ 16 then
            (.ok (), putMagazine s mid { m with name := n })
          else (.error .validation, s)
      | _ => (.error .validation, s)

/-- Category setter of Magazine: revalidates (non-empty string) and
stores. -/
def Magazine.setCategory (s : State) (mid : Nat) (v : PyVal) : Except Err Unit × State :=
  match s.magazines mid with
  | none => (.error .badRef, s)
  | some m =>
      match v with
      | .str c =>
          if c.length != 0 then
            (.ok (), putMagazine s mid { m with category := c })
          else (.error .validation, s)
      | _ => (.error .validation, s)

/-- One mutating operation of the API: the constructors and every setter.
The query methods are pure and live outside the step relation. -/
inductive Op where
  | newAuthor (name : PyVal)
  | newMagazine (name category : PyVal)
  | newArticle (author magazine : Nat) (title : PyVal)
  | setArticleAuthor (artid v : Nat)
  | setArticleMagazine (artid v : Nat)
  | setArticleTitle (artid : Nat) (v : PyVal)
  | setAuthorName (aid : Nat) (v : PyVal)
  | setMagazineName (mid : Nat) (v : PyVal)
  | setMagazineCategory (mid : Nat) (v : PyVal)
deriving Repr, DecidableEq

/-- Apply one operation; the post-state is returned also when the
operation raises. -/
def applyOp (s : State) : Op → Except Err Unit × State
  | .newAuthor name =>
      let (r, s1) := Author.init s name
      (r.map fun _ => (), s1)
  | .newMagazine name category =>
      let (r, s1) := Magazine.init s name category
      (r.map fun _ => (), s1)
  | .newArticle author magazine title =>
      let (r, s1) := Article.init s author magazine title
      (r.map fun _ => (), s1)
  | .setArticleAuthor artid v => Article.setAuthor s artid v
  | .setArticleMagazine artid v => Article.setMagazine s artid v
  | .setArticleTitle artid v => Article.setTitle s artid v
  | .setAuthorName aid v => Author.setName s aid v
  | .setMagazineName mid v => Magazine.setName s mid v
  | .setMagazineCategory mid v => Magazine.setCategory s mid v

/-- Run a sequence of operations from the empty state; a raising operation
leaves the state as it was (the program catches and continues), so `run`
reaches exactly the states any straight-line client program can reach. -/
def run (ops : List Op) : State :=
  ops.foldl (fun s op => (applyOp s op).2) initState

/-! ### Query methods

The queries read the heap only; dangling ids (never produced by the
operations above) are read through a default, which the reachability
invariant makes irrelevant. -/

/-- Dereference an article id; a dangling id yields a dummy (the Python
counterpart, dereferencing a dead pointer, cannot arise). -/
def articleOf (s : State) (i : Nat) : Article :=
  (s.articles i).getD { title := "", author := 0, magazine := 0 }

/-- The `_articles` list of the author at an id (the return of
`Author.articles()`), `[]` when the id is dangling. -/
def authorArticlesOf (s : State) (aid : Nat) : List Nat :=
  ((s.authors aid).map Author.articles).getD []

/-- The `_articles` list of the magazine at an id (the return of
`Magazine.articles()`), `[]` when the id is dangling. -/
def magazineArticlesOf (s : State) (mid : Nat) : List Nat :=
  ((s.magazines mid).map Magazine.articles).getD []

/-- Distinct elements of a list in first-occurrence order. CPython builds
these query results with `list(set(...))`, whose order is unspecified; the
embedding fixes first-occurrence order, and every theorem about a
set-valued query constrains only membership and duplicate-freeness. -/
def pySet {α : Type} [DecidableEq α] (l : List α) : List α :=
  l.foldl (fun acc x => if x ∈ acc then acc else acc ++ [x]) []

/-- Author.magazines: `list(set(article.magazine for article in self._articles))`. -/
def Author.magazines (s : State) (aid : Nat) : List Nat :=
  pySet ((authorArticlesOf s aid).map fun i => (articleOf s i).magazine)

/-- Author.topic_areas: None when the author has no articles, otherwise
`list(set(article.magazine.category for article in self._articles))`. -/
def Author.topic_areas (s : State) (aid : Nat) : Option (List String) :=
  if authorArticlesOf s aid = [] then none
  else some (pySet ((authorArticlesOf s aid).map fun i =>
    ((s.magazines (articleOf s i).magazine).map Magazine.category).getD ""))

/-- Magazine.contributors: `list(set(article.author for article in self._articles))`. -/
def Magazine.contributors (s : State) (mid : Nat) : List Nat :=
  pySet ((magazineArticlesOf s mid).map fun i => (articleOf s i).author)

/-- Magazine.article_titles: the list of titles, or None when empty. -/
def Magazine.article_titles (s : State) (mid : Nat) : Option (List String) :=
  let titles := (magazineArticlesOf s mid).map fun i => (articleOf s i).title
  if titles = [] then none else some titles

/-- One step of building the `author_counts` dict: CPython dicts keep
insertion order, and `d[k] = d.get(k, 0) + 1` bumps the value in place for
a present key and appends `(k, 1)` for an absent one. -/
def dictIncr {α : Type} [DecidableEq α] : List (α × Nat) → α → List (α × Nat)
  | [], k => [(k, 1)]
  | (k', v) :: rest, k =>
      if k' = k then (k', v + 1) :: rest else (k', v) :: dictIncr rest k

/-- Magazine.contributing_authors: build the per-author counts dict over
this magazine's articles, keep the authors whose count exceeds 2 (in dict
order, which is first-appearance order), and return None when none
qualify. -/
def Magazine.contributing_authors (s : State) (mid : Nat) : Option (List Nat) :=
  let d := ((magazineArticlesOf s mid).map fun i => (articleOf s i).author).foldl dictIncr []
  let contributing := (d.filter fun p => 2 < p.2).map Prod.fst
  if contributing = [] then none else some contributing

/-- Article count of the magazine at an id (the `len(mag._articles)` key of
top_publisher), 0 on a dangling id. -/
def magArticleCount (s : State) (mid : Nat) : Nat :=
  (magazineArticlesOf s mid).length

/-- Built-in `max(l, key=k)` on a non-empty list: left fold that replaces
the running best only on a strictly greater key, hence the first maximal
element wins; `none` on an empty list (where Python would raise). -/
def pyMax {α : Type} (key : α → Nat) : List α → Option α
  | [] => none
  | x :: xs => some (xs.foldl (fun best y => if key best < key y then y else best) x)

/-- Magazine.top_publisher: None when `Magazine.all` is empty; otherwise
`max(cls.all, key=lambda mag: len(mag._articles))` when some registered
magazine has an article, and None when none has. -/
def Magazine.top_publisher (s : State) : Option Nat :=
  if s.magazineAll = [] then none
  else if s.magazineAll.any fun mid => decide (0 < magArticleCount s mid) then
    pyMax (magArticleCount s) s.magazineAll
  else none

/-! ### Article.__init__ on arbitrary owner objects

The constructor checks only the title: the author and magazine arguments
are used without an isinstance check. To settle what happens when they are
not Author/Magazine instances, the constructor is replayed on bare Python
objects: all that matters about such an owner is whether it is an Author
instance, whether it is a Magazine instance, whether it supports attribute
assignment (instances of ordinary classes do; built-ins such as `int` or
`str` raise AttributeError on `obj._articles = []`), and its `_articles`
attribute when present. -/

/-- A bare Python object as the Article constructor sees an owner
argument. -/
structure PyObj where
  isAuthorInst : Bool
  isMagazineInst : Bool
  supportsAttrSet : Bool
  articlesAttr : Option (List Nat)
deriving Repr, DecidableEq

/-- The `hasattr`-guarded registration of the constructor on one owner:
`if not hasattr(o, '_articles'): o._articles = []` then
`o._articles.append(self)`. On an owner that rejects attribute creation the
assignment raises AttributeError. -/
def registerOn (o : PyObj) (self : Nat) : Except Err PyObj :=
  match o.articlesAttr with
  | some l => .ok { o with articlesAttr := some (l ++ [self]) }
  | none =>
      if o.supportsAttrSet then .ok { o with articlesAttr := some [self] }
      else .error .attributeError

/-- Article.__init__ replayed on arbitrary owner objects `a` and `m`, the
new article represented by the id `self` and `Article.all` by `allReg`.
Mirrors the statement order of the source: validate the title, store the
three fields, append to `Article.all`, register on the author, register on
the magazine. The post-state (registry and both owners) is returned even
when a step raises, so partial mutation is observable. -/
def Article.initRaw (self : Nat) (allReg : List Nat) (a m : PyObj) (title : PyVal) :
    Except Err String × (List Nat × PyObj × PyObj) :=
  match title with
  | .str t =>
      if 5 ≤ t.length && t.length ≤ 50 then
        let allReg1 := allReg ++ [self]
        match registerOn a self with
        | .error e => (.error e, (allReg1, a, m))
        | .ok a1 =>
            match registerOn m self with
            | .error e => (.error e, (allReg1, a1, m))
            | .ok m1 => (.ok t, (allReg1, a1, m1))
      else (.error .validation, (allReg, a, m))
  | _ => (.error .validation, (allReg, a, m))

/-! ## Basic lemmas about the state updates -/

theorem putAuthor_authors (s : State) (i : Nat) (a : Author) (j : Nat) :
    (putAuthor s i a).authors j = if j = i then some a else s.authors j := rfl

theorem putAuthor_magazines (s : State) (i : Nat) (a : Author) :
    (putAuthor s i a).magazines = s.magazines := rfl

theorem putAuthor_articles (s : State) (i : Nat) (a : Author) :
    (putAuthor s i a).articles = s.articles := rfl

theorem putMagazine_magazines (s : State) (i : Nat) (m : Magazine) (j : Nat) :
    (putMagazine s i m).magazines j = if j = i then some m else s.magazines j := rfl

theorem putMagazine_authors (s : State) (i : Nat) (m : Magazine) :
    (putMagazine s i m).authors = s.authors := rfl

theorem putMagazine_articles (s : State) (i : Nat) (m : Magazine) :
    (putMagazine s i m).articles = s.articles := rfl

theorem putArticle_articles (s : State) (i : Nat) (a : Article) (j : Nat) :
    (putArticle s i a).articles j = if j = i then some a else s.articles j := rfl

theorem putArticle_authors (s : State) (i : Nat) (a : Article) :
    (putArticle s i a).authors = s.authors := rfl

theorem putArticle_magazines (s : State) (i : Nat) (a : Article) :
    (putArticle s i a).magazines = s.magazines := rfl

theorem putAuthor_nextId (s : State) (i : Nat) (a : Author) :
    (putAuthor s i a).nextId = s.nextId := rfl

theorem putMagazine_nextId (s : State) (i : Nat) (m : Magazine) :
    (putMagazine s i m).nextId = s.nextId := rfl

theorem putArticle_nextId (s : State) (i : Nat) (a : Article) :
    (putArticle s i a).nextId = s.nextId := rfl

/-! ## C3, C4: the Article constructor -/

/-- C3: for every state, every author and magazine argument and every title
that is not a string or whose length lies outside 5..50, the Article
constructor raises ValidationError and the state is exactly the input
state: nothing was appended to `Article.all` and no back-reference list
changed. -/
theorem article_init_invalid_title (s : State) (author magazine : Nat) (t : PyVal)
    (h : validTitle t = false) :
    Article.init s author magazine t = (.error .validation, s) := by
  cases t with
  | str t0 =>
      simp only [validTitle] at h
      simp [Article.init, h]
  | intVal n => rfl
  | noneVal => rfl
  | boolVal b => rfl

/-- C3 witness: the constructor rejects the concrete four-character title
"abcd" and a non-string title, leaving the state untouched. -/
theorem article_init_invalid_title_witness :
    Article.init initState 0 1 (.str "abcd") = (.error .validation, initState) ∧
    Article.init initState 0 1 (.intVal 7) = (.error .validation, initState) :=
  ⟨article_init_invalid_title initState 0 1 (.str "abcd") (by decide),
   article_init_invalid_title initState 0 1 (.intVal 7) (by decide)⟩

/-- C4: for every state holding an Author at `author` and a Magazine at
`magazine`, and every string title of length 5..50, construction succeeds,
the new article stores exactly the given title, author and magazine, it is
appended to `Article.all`, and it is appended to the back-reference lists
of both owners. -/
theorem article_init_valid (s : State) (author magazine : Nat) (t : String)
    (ha : (s.authors author).isSome) (hm : (s.magazines magazine).isSome)
    (h5 : 5 ≤ t.length) (h50 : t.length ≤ 50) :
    (Article.init s author magazine (.str t)).1 = .ok s.nextId ∧
    ((Article.init s author magazine (.str t)).2.articles s.nextId
        = some { title := t, author := author, magazine := magazine }) ∧
    (Article.init s author magazine (.str t)).2.articleAll = s.articleAll ++ [s.nextId] ∧
    authorArticlesOf (Article.init s author magazine (.str t)).2 author
        = authorArticlesOf s author ++ [s.nextId] ∧
    magazineArticlesOf (Article.init s author magazine (.str t)).2 magazine
        = magazineArticlesOf s magazine ++ [s.nextId] := by
  obtain ⟨a, hA⟩ := Option.isSome_iff_exists.mp ha
  obtain ⟨m, hM⟩ := Option.isSome_iff_exists.mp hm
  refine ⟨?_, ?_, ?_, ?_, ?_⟩ <;>
    simp [Article.init, hA, hM, h5, h50, magazineAppend, authorAppend,
      putArticle, putAuthor, putMagazine, authorArticlesOf, magazineArticlesOf]

/-- A concrete state with one Author (id 0) and one Magazine (id 1), for
witnesses. -/
def demoState : State :=
  run [.newAuthor (.str "AliceAu"), .newMagazine (.str "TechW") (.str "Tech")]

/-- C4 witness: constructing "Hello" on the demo state succeeds with all
the stated effects. -/
theorem article_init_valid_witness :
    (Article.init demoState 0 1 (.str "Hello")).1 = .ok demoState.nextId ∧
    ((Article.init demoState 0 1 (.str "Hello")).2.articles demoState.nextId
        = some { title := "Hello", author := 0, magazine := 1 }) ∧
    (Article.init demoState 0 1 (.str "Hello")).2.articleAll
        = demoState.articleAll ++ [demoState.nextId] ∧
    authorArticlesOf (Article.init demoState 0 1 (.str "Hello")).2 0
        = authorArticlesOf demoState 0 ++ [demoState.nextId] ∧
    magazineArticlesOf (Article.init demoState 0 1 (.str "Hello")).2 1
        = magazineArticlesOf demoState 1 ++ [demoState.nextId] :=
  article_init_valid demoState 0 1 "Hello" (by decide) (by decide) (by decide) (by decide)

/-! ## C8: immutable fields -/

/-- C8: for every state, target id and value, the Article.title setter and
the Author.name setter raise ImmutableFieldError and return the state
unchanged (the source setters raise before touching anything). -/
theorem immutable_title_and_name (s : State) (artid aid : Nat) (v w : PyVal) :
    Article.setTitle s artid v = (.error .immutableField, s) ∧
    Author.setName s aid w = (.error .immutableField, s) :=
  ⟨rfl, rfl⟩

/-! ## C10: the constructor does not validate its owners -/

/-- C10 counterexample: with a valid five-character title but an `int`-like
author argument (not an Author instance, no attribute assignment), the
constructor does raise — an AttributeError at `author._articles = []` —
and it does so only after `Article.all` has already been extended, so the
claim that construction succeeds regardless of the author and magazine
arguments is false. -/
theorem article_initRaw_int_owner_cex :
    Article.initRaw 0 []
      { isAuthorInst := false, isMagazineInst := false,
        supportsAttrSet := false, articlesAttr := none }
      { isAuthorInst := false, isMagazineInst := true,
        supportsAttrSet := true, articlesAttr := some [] }
      (.str "Hello")
    = (.error .attributeError,
       ([0],
        { isAuthorInst := false, isMagazineInst := false,
          supportsAttrSet := false, articlesAttr := none },
        { isAuthorInst := false, isMagazineInst := true,
          supportsAttrSet := true, articlesAttr := some [] })) := rfl

/-- C10 amended: the constructor checks only the title — the owner
arguments are never validated against Author or Magazine. For every string
title of length 5..50 and all owner objects that accept attribute
assignment or already carry an `_articles` attribute (whether or not they
are Author or Magazine instances), construction succeeds, stores the given
title and owners, appends the article to `Article.all` and to each owner's
`_articles` list (creating the attribute on first use). Owners rejecting
attribute assignment (such as built-in ints) instead raise AttributeError
after `Article.all` has already been extended. -/
theorem article_initRaw_only_title_validated (self : Nat) (allReg : List Nat)
    (a m : PyObj) (t : String) (h5 : 5 ≤ t.length) (h50 : t.length ≤ 50)
    (hA : a.supportsAttrSet = true ∨ a.articlesAttr.isSome = true)
    (hM : m.supportsAttrSet = true ∨ m.articlesAttr.isSome = true) :
    Article.initRaw self allReg a m (.str t) =
      (.ok t, (allReg ++ [self],
        { a with articlesAttr := some (a.articlesAttr.getD [] ++ [self]) },
        { m with articlesAttr := some (m.articlesAttr.getD [] ++ [self]) })) := by
  have hreg : ∀ o : PyObj, o.supportsAttrSet = true ∨ o.articlesAttr.isSome = true →
      registerOn o self = .ok { o with articlesAttr := some (o.articlesAttr.getD [] ++ [self]) } := by
    intro o ho
    cases h : o.articlesAttr with
    | some l => simp [registerOn, h]
    | none =>
        rcases ho with ho | ho
        · simp [registerOn, h, ho]
        · rw [h] at ho; simp at ho
  simp [Article.initRaw, h5, h50, hreg a hA, hreg m hM]

/-- C10 witness for the amended theorem: a plain non-Author, non-Magazine
object pair (attribute assignment allowed, no `_articles` yet) is accepted
with the title "Hello". -/
theorem article_initRaw_only_title_validated_witness :
    Article.initRaw 3 [0]
      { isAuthorInst := false, isMagazineInst := false,
        supportsAttrSet := true, articlesAttr := none }
      { isAuthorInst := false, isMagazineInst := false,
        supportsAttrSet := true, articlesAttr := some [1] }
      (.str "Hello")
    = (.ok "Hello", ([0, 3],
        { isAuthorInst := false, isMagazineInst := false,
          supportsAttrSet := true, articlesAttr := some [3] },
        { isAuthorInst := false, isMagazineInst := false,
          supportsAttrSet := true, articlesAttr := some [1, 3] })) :=
  article_initRaw_only_title_validated 3 [0]
    { isAuthorInst := false, isMagazineInst := false,
      supportsAttrSet := true, articlesAttr := none }
    { isAuthorInst := false, isMagazineInst := false,
      supportsAttrSet := true, articlesAttr := some [1] }
    "Hello" (by decide) (by decide) (Or.inl rfl) (Or.inr rfl)

/-! ## C2: top_publisher -/

/-- Left fold of the max step: the result is the seed (and nothing beats
it) or the first element of the list strictly beating everything before it
and at least matching everything after it. -/
theorem foldl_pyMax_spec {α : Type} (key : α → Nat) (l : List α) (b : α) :
    (l.foldl (fun best y => if key best < key y then y else best) b = b
        ∧ ∀ y ∈ l, key y ≤ key b)
    ∨ (∃ l1 y l2, l = l1 ++ y :: l2
        ∧ l.foldl (fun best y => if key best < key y then y else best) b = y
        ∧ key b < key y ∧ (∀ z ∈ l1, key z < key y) ∧ ∀ z ∈ l2, key z ≤ key y) := by
  induction l generalizing b with
  | nil => exact Or.inl ⟨rfl, by simp⟩
  | cons y ys ih =>
      by_cases hy : key b < key y
      · simp only [List.foldl_cons, if_pos hy]
        rcases ih y with ⟨h1, h2⟩ | ⟨l1, y', l2, hsplit, hres, hlt, hl1, hl2⟩
        · exact Or.inr ⟨[], y, ys, by simp, h1, hy, by simp, h2⟩
        · refine Or.inr ⟨y :: l1, y', l2, by simp [hsplit], hres,
            Nat.lt_trans hy hlt, ?_, hl2⟩
          intro z hz
          rcases List.mem_cons.mp hz with rfl | hz
          · exact hlt
          · exact hl1 z hz
      · simp only [List.foldl_cons, if_neg hy]
        push_neg at hy
        rcases ih b with ⟨h1, h2⟩ | ⟨l1, y', l2, hsplit, hres, hlt, hl1, hl2⟩
        · refine Or.inl ⟨h1, ?_⟩
          intro z hz
          rcases List.mem_cons.mp hz with rfl | hz
          · exact hy
          · exact h2 z hz
        · refine Or.inr ⟨y :: l1, y', l2, by simp [hsplit], hres,
            hlt, ?_, hl2⟩
          intro z hz
          rcases List.mem_cons.mp hz with rfl | hz
          · exact Nat.lt_of_le_of_lt hy hlt
          · exact hl1 z hz

/-- Python max on a non-empty list: the returned element splits the list so
that everything before it has a strictly smaller key (it is the first
maximum) and everything after a smaller-or-equal key. -/
theorem pyMax_eq_some {α : Type} (key : α → Nat) (l : List α) (x : α)
    (h : pyMax key l = some x) :
    ∃ l1 l2, l = l1 ++ x :: l2
      ∧ (∀ z ∈ l1, key z < key x) ∧ ∀ z ∈ l2, key z ≤ key x := by
  match l with
  | [] => simp [pyMax] at h
  | b :: xs =>
      simp only [pyMax, Option.some.injEq] at h
      rcases foldl_pyMax_spec key xs b with ⟨h1, h2⟩ | ⟨l1, y, l2, hsplit, hres, hlt, hl1, hl2⟩
      · have hx : x = b := by rw [← h, h1]
        subst hx
        exact ⟨[], xs, rfl, by simp, h2⟩
      · rw [hres] at h
        subst h
        refine ⟨b :: l1, l2, by simp [hsplit], ?_, hl2⟩
        intro z hz
        rcases List.mem_cons.mp hz with rfl | hz
        · exact hlt
        · exact hl1 z hz

/-- C2: top_publisher returns None exactly when no registered Magazine has
an article (in particular when `Magazine.all` is empty); otherwise it
returns a registered Magazine whose article count is maximal, and the
returned one is the first in registry order achieving that maximum (every
earlier registered Magazine has a strictly smaller count). -/
theorem top_publisher_spec (s : State) :
    (Magazine.top_publisher s = none ↔ ∀ mid ∈ s.magazineAll, magArticleCount s mid = 0) ∧
    (∀ mid, Magazine.top_publisher s = some mid →
      mid ∈ s.magazineAll ∧
      (∀ x ∈ s.magazineAll, magArticleCount s x ≤ magArticleCount s mid) ∧
      ∃ l1 l2, s.magazineAll = l1 ++ mid :: l2 ∧
        ∀ z ∈ l1, magArticleCount s z < magArticleCount s mid) := by
  by_cases hempty : s.magazineAll = []
  · constructor
    · simp [Magazine.top_publisher, hempty]
    · intro mid hmid
      simp [Magazine.top_publisher, hempty] at hmid
  · by_cases hany : s.magazineAll.any (fun mid => decide (0 < magArticleCount s mid)) = true
    · have hres : Magazine.top_publisher s = pyMax (magArticleCount s) s.magazineAll := by
        simp [Magazine.top_publisher, hempty, hany]
      constructor
      · rw [hres]
        constructor
        · intro hnone
          obtain ⟨x, xs, hx⟩ : ∃ x xs, s.magazineAll = x :: xs := by
            cases hl : s.magazineAll with
            | nil => exact absurd hl hempty
            | cons x xs => exact ⟨x, xs, rfl⟩
          rw [hx] at hnone
          simp [pyMax] at hnone
        · intro hall
          obtain ⟨x, hxmem, hxpos⟩ := List.any_eq_true.mp hany
          have := hall x hxmem
          simp [this] at hxpos
      · intro mid hmid
        rw [hres] at hmid
        obtain ⟨l1, l2, hsplit, hl1, hl2⟩ := pyMax_eq_some (magArticleCount s) _ mid hmid
        refine ⟨by rw [hsplit]; exact List.mem_append_right _ (List.mem_cons_self _ _), ?_,
          l1, l2, hsplit, hl1⟩
        intro x hx
        rw [hsplit] at hx
        rcases List.mem_append.mp hx with hx | hx
        · exact Nat.le_of_lt (hl1 x hx)
        · rcases List.mem_cons.mp hx with rfl | hx
          · exact Nat.le_refl _
          · exact hl2 x hx
    · have hres : Magazine.top_publisher s = none := by
        simp [Magazine.top_publisher, hempty, hany]
      constructor
      · rw [hres]
        simp only [true_iff]
        intro mid hmid
        by_contra hne
        exact hany (List.any_eq_true.mpr
          ⟨mid, hmid, by simpa using Nat.pos_of_ne_zero hne⟩)
      · intro mid hmid
        rw [hres] at hmid
        exact absurd hmid (by simp)

/-! ## Lemmas about pySet (first-occurrence dedup) and the counts dict -/

theorem mem_foldl_dedup {α : Type} [DecidableEq α] (l acc : List α) (x : α) :
    x ∈ l.foldl (fun acc y => if y ∈ acc then acc else acc ++ [y]) acc
      ↔ x ∈ acc ∨ x ∈ l := by
  induction l generalizing acc with
  | nil => simp
  | cons y ys ih =>
      by_cases hy : y ∈ acc
      · rw [List.foldl_cons, if_pos hy, ih]
        constructor
        · rintro (h | h)
          · exact Or.inl h
          · exact Or.inr (List.mem_cons_of_mem _ h)
        · rintro (h | h)
          · exact Or.inl h
          · rcases List.mem_cons.mp h with rfl | h
            · exact Or.inl hy
            · exact Or.inr h
      · rw [List.foldl_cons, if_neg hy, ih]
        simp only [List.mem_append, List.mem_singleton, List.mem_cons]
        tauto

theorem nodup_foldl_dedup {α : Type} [DecidableEq α] (l : List α) (acc : List α)
    (hacc : acc.Nodup) :
    (l.foldl (fun acc y => if y ∈ acc then acc else acc ++ [y]) acc).Nodup := by
  induction l generalizing acc with
  | nil => exact hacc
  | cons y ys ih =>
      by_cases hy : y ∈ acc
      · rw [List.foldl_cons, if_pos hy]; exact ih acc hacc
      · rw [List.foldl_cons, if_neg hy]
        exact ih _ (by simp [List.nodup_append, hacc, hy])

theorem pySet_mem {α : Type} [DecidableEq α] (l : List α) (x : α) :
    x ∈ pySet l ↔ x ∈ l := by
  rw [pySet, mem_foldl_dedup]
  simp

theorem pySet_nodup {α : Type} [DecidableEq α] (l : List α) : (pySet l).Nodup :=
  nodup_foldl_dedup l [] List.nodup_nil

/-- Keys of a counts dict, in insertion order. -/
def dKeys {α : Type} (d : List (α × Nat)) : List α := d.map Prod.fst

/-- Lookup in a counts dict, 0 for an absent key (the `d.get(k, 0)` of the
source). -/
def dGet {α : Type} [DecidableEq α] : List (α × Nat) → α → Nat
  | [], _ => 0
  | (k', v) :: rest, k => if k' = k then v else dGet rest k

theorem dKeys_dictIncr {α : Type} [DecidableEq α] (d : List (α × Nat)) (k : α) :
    dKeys (dictIncr d k) = if k ∈ dKeys d then dKeys d else dKeys d ++ [k] := by
  induction d with
  | nil => simp [dictIncr, dKeys]
  | cons p rest ih =>
      obtain ⟨k', v⟩ := p
      by_cases hk : k' = k
      · subst hk
        simp [dictIncr, dKeys]
      · have hcons : dKeys (dictIncr ((k', v) :: rest) k) = k' :: dKeys (dictIncr rest k) := by
          simp [dictIncr, hk, dKeys]
        rw [hcons, ih]
        have hne : k ≠ k' := Ne.symm hk
        have hmem2 : k ∈ dKeys ((k', v) :: rest) ↔ k ∈ dKeys rest := by
          show k ∈ k' :: dKeys rest ↔ k ∈ dKeys rest
          rw [List.mem_cons]
          simp [hne]
        by_cases hmem : k ∈ dKeys rest
        · rw [if_pos hmem, if_pos (hmem2.mpr hmem)]
          rfl
        · rw [if_neg hmem, if_neg (fun h => hmem (hmem2.mp h))]
          show k' :: (dKeys rest ++ [k]) = (k' :: dKeys rest) ++ [k]
          simp

theorem dGet_dictIncr_self {α : Type} [DecidableEq α] (d : List (α × Nat)) (k : α) :
    dGet (dictIncr d k) k = dGet d k + 1 := by
  induction d with
  | nil => simp [dictIncr, dGet]
  | cons p rest ih =>
      obtain ⟨k', v⟩ := p
      by_cases hk : k' = k
      · subst hk; simp [dictIncr, dGet]
      · simp [dictIncr, hk, dGet, ih]

theorem dGet_dictIncr_ne {α : Type} [DecidableEq α] (d : List (α × Nat)) (k k' : α)
    (h : k' ≠ k) : dGet (dictIncr d k) k' = dGet d k' := by
  have hne : k ≠ k' := Ne.symm h
  induction d with
  | nil => simp [dictIncr, dGet, hne]
  | cons p rest ih =>
      obtain ⟨k0, v⟩ := p
      by_cases hk : k0 = k
      · subst hk
        simp [dictIncr, dGet, hne]
      · simp [dictIncr, hk, dGet, ih]

theorem dKeys_foldl_dictIncr {α : Type} [DecidableEq α] (l : List α)
    (d : List (α × Nat)) :
    dKeys (l.foldl dictIncr d)
      = l.foldl (fun acc y => if y ∈ acc then acc else acc ++ [y]) (dKeys d) := by
  induction l generalizing d with
  | nil => rfl
  | cons y ys ih =>
      rw [List.foldl_cons, List.foldl_cons, ih, dKeys_dictIncr]

theorem dGet_foldl_dictIncr {α : Type} [DecidableEq α] (l : List α)
    (d : List (α × Nat)) (k : α) :
    dGet (l.foldl dictIncr d) k = dGet d k + l.count k := by
  induction l generalizing d with
  | nil => simp
  | cons y ys ih =>
      rw [List.foldl_cons, ih]
      by_cases hy : y = k
      · subst hy
        rw [dGet_dictIncr_self, List.count_cons_self]
        omega
      · rw [dGet_dictIncr_ne d y k (Ne.symm hy), List.count_cons_of_ne (Ne.symm hy)]

theorem dict_filter_map_fst {α : Type} [DecidableEq α] (d : List (α × Nat))
    (hnd : (dKeys d).Nodup) :
    ((d.filter fun p => 2 < p.2).map Prod.fst)
      = (dKeys d).filter fun k => 2 < dGet d k := by
  induction d with
  | nil => rfl
  | cons p rest ih =>
      obtain ⟨k, v⟩ := p
      simp only [dKeys, List.map_cons, List.nodup_cons] at hnd
      obtain ⟨hk, hrest⟩ := hnd
      have hcongr : (dKeys rest).filter (fun k' => 2 < dGet ((k, v) :: rest) k')
          = (dKeys rest).filter fun k' => 2 < dGet rest k' := by
        apply List.filter_congr
        intro k' hk'
        have hne : k ≠ k' := fun h => hk (h ▸ hk')
        simp [dGet, hne]
      have hrhs : (dKeys ((k, v) :: rest)).filter (fun k' => 2 < dGet ((k, v) :: rest) k')
          = (if 2 < v then [k] else []) ++ ((dKeys rest).filter fun k' => 2 < dGet rest k') := by
        show (k :: dKeys rest).filter (fun k' => 2 < dGet ((k, v) :: rest) k') = _
        rw [List.filter_cons, hcongr]
        by_cases hv : 2 < v
        · simp [dGet, hv]
        · simp [dGet, hv]
      rw [hrhs, ← ih hrest, List.filter_cons]
      by_cases hv : 2 < v
      · simp [hv]
      · simp [hv]

/-! ## C6: contributing_authors -/

/-- Author of each article of the magazine at `mid`, in back-reference
list order: the sequence that contributing_authors groups and counts. -/
def magAuthorsSeq (s : State) (mid : Nat) : List Nat :=
  (magazineArticlesOf s mid).map fun i => (articleOf s i).author

/-- C6: contributing_authors returns None exactly when no author has more
than 2 articles in this magazine; otherwise it returns precisely the
authors with strictly more than 2 articles here, without duplicates, in
first-appearance order (the first-occurrence dedup of the article-author
sequence, filtered by the count). -/
theorem contributing_authors_spec (s : State) (mid : Nat) :
    (Magazine.contributing_authors s mid = none ↔
      ∀ a, (magAuthorsSeq s mid).count a ≤ 2) ∧
    (∀ l, Magazine.contributing_authors s mid = some l →
      (∀ a, a ∈ l ↔ 2 < (magAuthorsSeq s mid).count a) ∧ l.Nodup ∧
      l = (pySet (magAuthorsSeq s mid)).filter
            fun a => 2 < (magAuthorsSeq s mid).count a) := by
  set seq := magAuthorsSeq s mid with hseq
  have hkey : dKeys (seq.foldl dictIncr []) = pySet seq := by
    rw [dKeys_foldl_dictIncr]; rfl
  have hnd : (dKeys (seq.foldl dictIncr [])).Nodup := by
    rw [hkey]; exact pySet_nodup seq
  have hget : ∀ a, dGet (seq.foldl dictIncr []) a = seq.count a := by
    intro a; rw [dGet_foldl_dictIncr]; simp [dGet]
  have hmain : ((seq.foldl dictIncr []).filter fun p => 2 < p.2).map Prod.fst
      = (pySet seq).filter fun a => 2 < seq.count a := by
    rw [dict_filter_map_fst _ hnd, hkey]
    apply List.filter_congr
    intro a _
    rw [hget a]
  have hdef : Magazine.contributing_authors s mid =
      if ((pySet seq).filter fun a => 2 < seq.count a) = [] then none
      else some ((pySet seq).filter fun a => 2 < seq.count a) := by
    show (if ((seq.foldl dictIncr []).filter fun p => 2 < p.2).map Prod.fst = []
        then none
        else some (((seq.foldl dictIncr []).filter fun p => 2 < p.2).map Prod.fst)) = _
    rw [hmain]
  have hmem : ∀ a, a ∈ ((pySet seq).filter fun x => 2 < seq.count x)
      ↔ 2 < seq.count a := by
    intro a
    rw [List.mem_filter]
    constructor
    · rintro ⟨-, h⟩; simpa using h
    · intro h
      refine ⟨(pySet_mem seq a).mpr (List.count_pos_iff.mp ?_), by simpa using h⟩
      omega
  constructor
  · rw [hdef]
    by_cases hnil : ((pySet seq).filter fun a => 2 < seq.count a) = []
    · rw [if_pos hnil]
      simp only [true_iff]
      intro a
      by_contra hgt
      push_neg at hgt
      have : a ∈ ((pySet seq).filter fun x => 2 < seq.count x) := (hmem a).mpr hgt
      rw [hnil] at this
      exact absurd this (List.not_mem_nil a)
    · rw [if_neg hnil]
      constructor
      · intro h; cases h
      · intro hall
        exfalso
        apply hnil
        rw [List.filter_eq_nil_iff]
        intro a ha
        simpa using Nat.not_lt.mpr (hall a)
  · intro l hl
    rw [hdef] at hl
    by_cases hnil : ((pySet seq).filter fun a => 2 < seq.count a) = []
    · rw [if_pos hnil] at hl; cases hl
    · rw [if_neg hnil] at hl
      obtain rfl : ((pySet seq).filter fun a => 2 < seq.count a) = l :=
        Option.some_injective _ hl
      exact ⟨hmem, (pySet_nodup seq).filter _, rfl⟩

/-! ## C7: topic_areas -/

/-- Category of the magazine of each article of the author at `aid`, in
back-reference list order: the multiset that topic_areas deduplicates. -/
def authorCatsSeq (s : State) (aid : Nat) : List String :=
  (authorArticlesOf s aid).map fun i =>
    ((s.magazines (articleOf s i).magazine).map Magazine.category).getD ""

/-- C7: topic_areas returns None exactly when the author has no articles;
otherwise it returns a duplicate-free list whose members are exactly the
categories of the magazines of the author's articles (set equality up to
order and duplicates). -/
theorem topic_areas_spec (s : State) (aid : Nat) :
    (Author.topic_areas s aid = none ↔ authorArticlesOf s aid = []) ∧
    (∀ l, Author.topic_areas s aid = some l →
      l.Nodup ∧ ∀ c, c ∈ l ↔ c ∈ authorCatsSeq s aid) := by
  constructor
  · unfold Author.topic_areas
    by_cases h : authorArticlesOf s aid = []
    · rw [if_pos h]; simp [h]
    · rw [if_neg h]; simp [h]
  · intro l hl
    unfold Author.topic_areas at hl
    by_cases h : authorArticlesOf s aid = []
    · rw [if_pos h] at hl; cases hl
    · rw [if_neg h] at hl
      obtain rfl := Option.some_injective _ hl.symm
      exact ⟨pySet_nodup _, fun c => pySet_mem _ c⟩

/-! ## C5, C9: the author/magazine setters -/

/-- C5: when an article currently owned by `oldA` (appearing exactly once
in that author's back-reference list, as the invariant guarantees) is
reassigned to a different author `newA`, the setter succeeds, the article
record now stores `newA` (the magazine field untouched), the article is
gone from the old author's list, it is appended to the new author's list,
and the magazine heap — hence every magazine back-reference list — is
unchanged. -/
theorem setAuthor_moves (s : State) (artid oldA newA : Nat) (art : Article)
    (aOld aNew : Author)
    (hart : s.articles artid = some art) (hOld : art.author = oldA)
    (haOld : s.authors oldA = some aOld) (haNew : s.authors newA = some aNew)
    (hne : newA ≠ oldA) (honce : aOld.articles.count artid = 1) :
    (Article.setAuthor s artid newA).1 = .ok () ∧
    ((Article.setAuthor s artid newA).2.articles artid
        = some { title := art.title, author := newA, magazine := art.magazine }) ∧
    authorArticlesOf (Article.setAuthor s artid newA).2 oldA
        = aOld.articles.erase artid ∧
    artid ∉ authorArticlesOf (Article.setAuthor s artid newA).2 oldA ∧
    authorArticlesOf (Article.setAuthor s artid newA).2 newA
        = aNew.articles ++ [artid] ∧
    (Article.setAuthor s artid newA).2.magazines = s.magazines := by
  subst hOld
  have hmem : artid ∈ aOld.articles := List.count_pos_iff.mp (by omega)
  have hne' : art.author ≠ newA := Ne.symm hne
  have hnotin : artid ∉ aOld.articles.erase artid := by
    rw [← List.count_eq_zero, List.count_erase_self, honce]
  refine ⟨?_, ?_, ?_, ?_, ?_, ?_⟩ <;>
    simp [Article.setAuthor, hart, haNew, authorRemoveIfPresent, haOld, hmem,
      authorAppend, putAuthor, putArticle, authorArticlesOf, hne, hne', hnotin]

/-- A concrete state with two Authors (ids 0, 1), a Magazine (id 2) and an
Article (id 3) owned by author 0, for the setter witnesses. -/
def setterDemoState : State :=
  run [.newAuthor (.str "AliceAu"), .newAuthor (.str "BobAuth"),
       .newMagazine (.str "TechW") (.str "Tech"), .newArticle 0 2 (.str "Hello")]

/-- C5 witness: on a state with two authors and one article owned by the
first, reassigning to the second moves the article as stated. -/
theorem setAuthor_moves_witness :
    (Article.setAuthor setterDemoState 3 1).1 = .ok () ∧
    ((Article.setAuthor setterDemoState 3 1).2.articles 3
        = some { title := "Hello", author := 1, magazine := 2 }) ∧
    authorArticlesOf (Article.setAuthor setterDemoState 3 1).2 0 = List.erase [3] 3 ∧
    3 ∉ authorArticlesOf (Article.setAuthor setterDemoState 3 1).2 0 ∧
    authorArticlesOf (Article.setAuthor setterDemoState 3 1).2 1 = [] ++ [3] ∧
    (Article.setAuthor setterDemoState 3 1).2.magazines = setterDemoState.magazines :=
  setAuthor_moves setterDemoState 3 0 1
    { title := "Hello", author := 0, magazine := 2 }
    { name := "AliceAu", articles := [3] } { name := "BobAuth", articles := [] }
    (by decide) (by decide) (by decide) (by decide) (by decide) (by decide)

/-- C9: assigning an article's author to its own current author succeeds
and leaves the article exactly once in that author's back-reference list
(the setter first removes the single occurrence, then re-appends it), with
the article record unchanged; the same holds for assigning the magazine to
the current magazine. -/
theorem set_same_owner_keeps_single (s : State) (artid : Nat) (art : Article)
    (a : Author) (m : Magazine)
    (hart : s.articles artid = some art)
    (ha : s.authors art.author = some a) (honceA : a.articles.count artid = 1)
    (hm : s.magazines art.magazine = some m) (honceM : m.articles.count artid = 1) :
    ((Article.setAuthor s artid art.author).1 = .ok () ∧
     (Article.setAuthor s artid art.author).2.articles artid = some art ∧
     (authorArticlesOf (Article.setAuthor s artid art.author).2 art.author).count artid
        = 1) ∧
    ((Article.setMagazine s artid art.magazine).1 = .ok () ∧
     (Article.setMagazine s artid art.magazine).2.articles artid = some art ∧
     (magazineArticlesOf (Article.setMagazine s artid art.magazine).2
        art.magazine).count artid = 1) := by
  have hmemA : artid ∈ a.articles := List.count_pos_iff.mp (by omega)
  have hmemM : artid ∈ m.articles := List.count_pos_iff.mp (by omega)
  have hcountA : ((a.articles.erase artid) ++ [artid]).count artid = 1 := by
    rw [List.count_append, List.count_erase_self, honceA]
    simp
  have hcountM : ((m.articles.erase artid) ++ [artid]).count artid = 1 := by
    rw [List.count_append, List.count_erase_self, honceM]
    simp
  refine ⟨⟨?_, ?_, ?_⟩, ?_, ?_, ?_⟩ <;>
    simp [Article.setAuthor, Article.setMagazine, hart, ha, hm,
      authorRemoveIfPresent, magazineRemoveIfPresent, hmemA, hmemM,
      authorAppend, magazineAppend, putAuthor, putMagazine, putArticle,
      authorArticlesOf, magazineArticlesOf, hcountA, hcountM]

/-- C9 witness: on the setter demo state, re-assigning article 3 to its
current author 0 and current magazine 2 keeps it exactly once in each
list. -/
theorem set_same_owner_keeps_single_witness :
    ((Article.setAuthor setterDemoState 3 0).1 = .ok () ∧
     (Article.setAuthor setterDemoState 3 0).2.articles 3
        = some { title := "Hello", author := 0, magazine := 2 } ∧
     (authorArticlesOf (Article.setAuthor setterDemoState 3 0).2 0).count 3 = 1) ∧
    ((Article.setMagazine setterDemoState 3 2).1 = .ok () ∧
     (Article.setMagazine setterDemoState 3 2).2.articles 3
        = some { title := "Hello", author := 0, magazine := 2 } ∧
     (magazineArticlesOf (Article.setMagazine setterDemoState 3 2).2 2).count 3 = 1) :=
  set_same_owner_keeps_single setterDemoState 3
    { title := "Hello", author := 0, magazine := 2 }
    { name := "AliceAu", articles := [3] }
    { name := "TechW", category := "Tech", articles := [3] }
    (by decide) (by decide) (by decide) (by decide) (by decide)

/-! ## C1: the bidirectional back-reference invariant on reachable states -/

/-- Well-formedness of ids: every heap key and every article id stored in
a back-reference list is below the fresh-id counter. -/
def IdsBounded (s : State) : Prop :=
  (∀ i a, s.authors i = some a → i < s.nextId ∧ ∀ x ∈ a.articles, x < s.nextId) ∧
  (∀ i m, s.magazines i = some m → i < s.nextId ∧ ∀ x ∈ m.articles, x < s.nextId) ∧
  (∀ i art, s.articles i = some art → i < s.nextId)

/-- The C1 invariant proper: every Article references an existing Author
and an existing Magazine, and it occurs exactly once in the back-reference
list of its current Author and current Magazine and zero times in every
other author's or magazine's list. -/
def BackRefConsistent (s : State) : Prop :=
  ∀ i art, s.articles i = some art →
    (∃ a, s.authors art.author = some a) ∧
    (∃ m, s.magazines art.magazine = some m) ∧
    (∀ j a, s.authors j = some a →
      a.articles.count i = if j = art.author then 1 else 0) ∧
    (∀ j m, s.magazines j = some m →
      m.articles.count i = if j = art.magazine then 1 else 0)

/-- The full invariant carried through every operation. -/
def StateInv (s : State) : Prop := IdsBounded s ∧ BackRefConsistent s

theorem StateInv.ofInit : StateInv initState := by
  refine ⟨⟨?_, ?_, ?_⟩, ?_⟩ <;> intro i x h <;> cases h

/-- A list of ids all below `n` does not count `n`. -/
theorem count_eq_zero_of_lt (l : List Nat) (n : Nat) (h : ∀ x ∈ l, x < n) :
    l.count n = 0 :=
  List.count_eq_zero.mpr fun hmem => absurd (h n hmem) (Nat.lt_irrefl n)

theorem StateInv.authorInit (s : State) (h : StateInv s) (name : PyVal) :
    StateInv (Author.init s name).2 := by
  obtain ⟨⟨hA, hM, hArt⟩, hB⟩ := h
  cases name with
  | intVal n => exact ⟨⟨hA, hM, hArt⟩, hB⟩
  | noneVal => exact ⟨⟨hA, hM, hArt⟩, hB⟩
  | boolVal b => exact ⟨⟨hA, hM, hArt⟩, hB⟩
  | str n =>
      by_cases hv : validAuthorName (.str n) = true
      · have hres : (Author.init s (.str n)).2
            = { authors := fun j =>
                  if j = s.nextId then some { name := n, articles := [] }
                  else s.authors j,
                magazines := s.magazines, articles := s.articles,
                articleAll := s.articleAll, magazineAll := s.magazineAll,
                nextId := s.nextId + 1 } := by
          simp [Author.init, hv, putAuthor]
        rw [hres]
        refine ⟨⟨?_, ?_, ?_⟩, ?_⟩
        · intro i a hia
          dsimp only at hia ⊢
          by_cases hi : i = s.nextId
          · rw [if_pos hi] at hia
            obtain rfl := Option.some_injective _ hia
            exact ⟨by omega, by simp⟩
          · rw [if_neg hi] at hia
            obtain ⟨h1, h2⟩ := hA i a hia
            exact ⟨by omega, fun x hx => by have := h2 x hx; omega⟩
        · intro i m him
          dsimp only at him ⊢
          obtain ⟨h1, h2⟩ := hM i m him
          exact ⟨by omega, fun x hx => by have := h2 x hx; omega⟩
        · intro i art hia
          dsimp only at hia ⊢
          have := hArt i art hia
          omega
        · intro i art hart
          dsimp only at hart ⊢
          obtain ⟨⟨a0, ha0⟩, ⟨m0, hm0⟩, hcA, hcM⟩ := hB i art hart
          have hbnd : art.author < s.nextId := (hA _ _ ha0).1
          refine ⟨⟨a0, ?_⟩, ⟨m0, hm0⟩, ?_, hcM⟩
          · rw [if_neg (by omega)]
            exact ha0
          · intro j a hja
            by_cases hj : j = s.nextId
            · rw [if_pos hj] at hja
              obtain rfl := Option.some_injective _ hja
              rw [if_neg (by omega)]
              rfl
            · rw [if_neg hj] at hja
              exact hcA j a hja
      · cases hnv : validAuthorName (.str n) with
        | true => exact absurd hnv hv
        | false =>
            have hres : (Author.init s (.str n)).2 = s := by
              simp [Author.init, hnv]
            rw [hres]
            exact ⟨⟨hA, hM, hArt⟩, hB⟩

theorem StateInv.magazineInit (s : State) (h : StateInv s) (name category : PyVal) :
    StateInv (Magazine.init s name category).2 := by
  obtain ⟨⟨hA, hM, hArt⟩, hB⟩ := h
  have hkeep : StateInv s := ⟨⟨hA, hM, hArt⟩, hB⟩
  by_cases hvn : validMagazineName name = true
  · by_cases hvc : validCategory category = true
    · cases name with
      | str n =>
          cases category with
          | str c =>
              have hres : (Magazine.init s (.str n) (.str c)).2
                  = { authors := s.authors,
                      magazines := fun j =>
                        if j = s.nextId
                        then some { name := n, category := c, articles := [] }
                        else s.magazines j,
                      articles := s.articles,
                      articleAll := s.articleAll,
                      magazineAll := s.magazineAll ++ [s.nextId],
                      nextId := s.nextId + 1 } := by
                simp [Magazine.init, hvn, hvc, putMagazine]
              rw [hres]
              refine ⟨⟨?_, ?_, ?_⟩, ?_⟩
              · intro i a hia
                dsimp only at hia ⊢
                obtain ⟨h1, h2⟩ := hA i a hia
                exact ⟨by omega, fun x hx => by have := h2 x hx; omega⟩
              · intro i m him
                dsimp only at him ⊢
                by_cases hi : i = s.nextId
                · rw [if_pos hi] at him
                  obtain rfl := Option.some_injective _ him
                  exact ⟨by omega, by simp⟩
                · rw [if_neg hi] at him
                  obtain ⟨h1, h2⟩ := hM i m him
                  exact ⟨by omega, fun x hx => by have := h2 x hx; omega⟩
              · intro i art hia
                dsimp only at hia ⊢
                have := hArt i art hia
                omega
              · intro i art hart
                dsimp only at hart ⊢
                obtain ⟨⟨a0, ha0⟩, ⟨m0, hm0⟩, hcA, hcM⟩ := hB i art hart
                have hbnd : art.magazine < s.nextId := (hM _ _ hm0).1
                refine ⟨⟨a0, ha0⟩, ⟨m0, ?_⟩, hcA, ?_⟩
                · rw [if_neg (by omega)]
                  exact hm0
                · intro j m hjm
                  by_cases hj : j = s.nextId
                  · rw [if_pos hj] at hjm
                    obtain rfl := Option.some_injective _ hjm
                    rw [if_neg (by omega)]
                    rfl
                  · rw [if_neg hj] at hjm
                    exact hcM j m hjm
          | intVal k => simp [validCategory] at hvc
          | noneVal => simp [validCategory] at hvc
          | boolVal b => simp [validCategory] at hvc
      | intVal k => simp [validMagazineName] at hvn
      | noneVal => simp [validMagazineName] at hvn
      | boolVal b => simp [validMagazineName] at hvn
    · have hres : (Magazine.init s name category).2 = s := by
        simp [Magazine.init, hvn, hvc]
      rw [hres]; exact hkeep
  · have hres : (Magazine.init s name category).2 = s := by
      simp [Magazine.init, hvn]
    rw [hres]; exact hkeep

theorem StateInv.articleInit (s : State) (h : StateInv s) (author magazine : Nat)
    (title : PyVal) : StateInv (Article.init s author magazine title).2 := by
  obtain ⟨⟨hA, hM, hArt⟩, hB⟩ := h
  have hkeep : StateInv s := ⟨⟨hA, hM, hArt⟩, hB⟩
  cases title with
  | intVal k => exact hkeep
  | noneVal => exact hkeep
  | boolVal b => exact hkeep
  | str t =>
      by_cases hlen : (5 ≤ t.length && t.length ≤ 50) = true
      · cases ha : s.authors author with
        | none =>
            have hres : (Article.init s author magazine (.str t)).2 = s := by
              simp [Article.init, hlen, ha]
            rw [hres]; exact hkeep
        | some a =>
          cases hm : s.magazines magazine with
          | none =>
              have hres : (Article.init s author magazine (.str t)).2 = s := by
                simp [Article.init, hlen, ha, hm]
              rw [hres]; exact hkeep
          | some m =>
              have hres : (Article.init s author magazine (.str t)).2
                  = { authors := fun j =>
                        if j = author
                        then some { name := a.name, articles := a.articles ++ [s.nextId] }
                        else s.authors j,
                      magazines := fun j =>
                        if j = magazine
                        then some { name := m.name, category := m.category,
                                    articles := m.articles ++ [s.nextId] }
                        else s.magazines j,
                      articles := fun j =>
                        if j = s.nextId
                        then some { title := t, author := author, magazine := magazine }
                        else s.articles j,
                      articleAll := s.articleAll ++ [s.nextId],
                      magazineAll := s.magazineAll,
                      nextId := s.nextId + 1 } := by
                simp [Article.init, hlen, ha, hm, putArticle, authorAppend,
                  putAuthor, magazineAppend, putMagazine]
              rw [hres]
              have haut : author < s.nextId := (hA _ _ ha).1
              have hmag : magazine < s.nextId := (hM _ _ hm).1
              have hacnt : a.articles.count s.nextId = 0 :=
                count_eq_zero_of_lt _ _ (hA _ _ ha).2
              have hmcnt : m.articles.count s.nextId = 0 :=
                count_eq_zero_of_lt _ _ (hM _ _ hm).2
              refine ⟨⟨?_, ?_, ?_⟩, ?_⟩
              · intro j a0 hja
                dsimp only at hja ⊢
                by_cases hj : j = author
                · rw [if_pos hj] at hja
                  obtain rfl := Option.some_injective _ hja
                  refine ⟨by omega, ?_⟩
                  intro x hx
                  rcases List.mem_append.mp hx with hx | hx
                  · have := (hA _ _ ha).2 x hx; omega
                  · rcases List.mem_singleton.mp hx with rfl; omega
                · rw [if_neg hj] at hja
                  obtain ⟨h1, h2⟩ := hA j a0 hja
                  exact ⟨by omega, fun x hx => by have := h2 x hx; omega⟩
              · intro j m0 hjm
                dsimp only at hjm ⊢
                by_cases hj : j = magazine
                · rw [if_pos hj] at hjm
                  obtain rfl := Option.some_injective _ hjm
                  refine ⟨by omega, ?_⟩
                  intro x hx
                  rcases List.mem_append.mp hx with hx | hx
                  · have := (hM _ _ hm).2 x hx; omega
                  · rcases List.mem_singleton.mp hx with rfl; omega
                · rw [if_neg hj] at hjm
                  obtain ⟨h1, h2⟩ := hM j m0 hjm
                  exact ⟨by omega, fun x hx => by have := h2 x hx; omega⟩
              · intro j art0 hja
                dsimp only at hja ⊢
                by_cases hj : j = s.nextId
                · omega
                · rw [if_neg hj] at hja
                  have := hArt j art0 hja
                  omega
              · intro i' art' hart'
                dsimp only at hart' ⊢
                by_cases hi' : i' = s.nextId
                · rw [if_pos hi'] at hart'
                  obtain rfl := Option.some_injective _ hart'
                  subst hi'
                  refine ⟨⟨_, if_pos rfl⟩, ⟨_, if_pos rfl⟩, ?_, ?_⟩
                  · intro j a0 hja
                    by_cases hj : j = author
                    · rw [if_pos hj] at hja
                      obtain rfl := Option.some_injective _ hja
                      rw [if_pos hj]
                      simp [List.count_append, hacnt]
                    · rw [if_neg hj] at hja
                      rw [if_neg hj]
                      exact count_eq_zero_of_lt _ _ (hA j a0 hja).2
                  · intro j m0 hjm
                    by_cases hj : j = magazine
                    · rw [if_pos hj] at hjm
                      obtain rfl := Option.some_injective _ hjm
                      rw [if_pos hj]
                      simp [List.count_append, hmcnt]
                    · rw [if_neg hj] at hjm
                      rw [if_neg hj]
                      exact count_eq_zero_of_lt _ _ (hM j m0 hjm).2
                · rw [if_neg hi'] at hart'
                  obtain ⟨⟨a1, ha1⟩, ⟨m1, hm1⟩, hcA, hcM⟩ := hB i' art' hart'
                  have hio : i' < s.nextId := hArt i' art' hart'
                  refine ⟨?_, ?_, ?_, ?_⟩
                  · by_cases haa : art'.author = author
                    · exact ⟨_, if_pos haa⟩
                    · exact ⟨a1, by rw [if_neg haa]; exact ha1⟩
                  · by_cases hmm : art'.magazine = magazine
                    · exact ⟨_, if_pos hmm⟩
                    · exact ⟨m1, by rw [if_neg hmm]; exact hm1⟩
                  · intro j a0 hja
                    by_cases hj : j = author
                    · rw [if_pos hj] at hja
                      obtain rfl := Option.some_injective _ hja
                      subst hj
                      have := hcA j a ha
                      rw [List.count_append]
                      simp only [List.count_singleton']
                      have hne : ¬ s.nextId = i' := by omega
                      rw [if_neg hne]
                      omega
                    · rw [if_neg hj] at hja
                      exact hcA j a0 hja
                  · intro j m0 hjm
                    by_cases hj : j = magazine
                    · rw [if_pos hj] at hjm
                      obtain rfl := Option.some_injective _ hjm
                      subst hj
                      have := hcM j m hm
                      rw [List.count_append]
                      simp only [List.count_singleton']
                      have hne : ¬ s.nextId = i' := by omega
                      rw [if_neg hne]
                      omega
                    · rw [if_neg hj] at hjm
                      exact hcM j m0 hjm
      · have hres : (Article.init s author magazine (.str t)).2 = s := by
          simp only [Article.init]
          rw [if_neg hlen]
        rw [hres]; exact hkeep


/-- Core preservation argument for the author setter: any post-state whose
authors map appends the article to the list `Y.articles` at the new key
`v`, stores the erased list `X.articles` at the old key, and keeps
everything else, satisfies the invariant again. -/
theorem inv_core_setAuthor (s sF : State) (artid v : Nat) (art : Article)
    (X Y : Author)
    (hA : ∀ i a, s.authors i = some a → i < s.nextId ∧ ∀ x ∈ a.articles, x < s.nextId)
    (hM : ∀ i m, s.magazines i = some m → i < s.nextId ∧ ∀ x ∈ m.articles, x < s.nextId)
    (hArt : ∀ i a, s.articles i = some a → i < s.nextId)
    (hB : BackRefConsistent s)
    (hart : s.articles artid = some art)
    (hAu : ∀ j, sF.authors j
        = if j = v then some { name := Y.name, articles := Y.articles ++ [artid] }
          else if j = art.author then some X
          else s.authors j)
    (hAr : ∀ j, sF.articles j
        = if j = artid
          then some { title := art.title, author := v, magazine := art.magazine }
          else s.articles j)
    (hMg : sF.magazines = s.magazines) (hNx : sF.nextId = s.nextId)
    (hX0 : X.articles.count artid = 0)
    (hXi : ∀ i' art', i' ≠ artid → s.articles i' = some art' →
        X.articles.count i' = if art.author = art'.author then 1 else 0)
    (hXb : ∀ x ∈ X.articles, x < s.nextId)
    (hXlt : art.author < s.nextId)
    (hY0 : Y.articles.count artid = 0)
    (hYi : ∀ i' art', i' ≠ artid → s.articles i' = some art' →
        Y.articles.count i' = if v = art'.author then 1 else 0)
    (hYb : ∀ x ∈ Y.articles, x < s.nextId)
    (hvlt : v < s.nextId) :
    StateInv sF := by
  have hartbnd : artid < s.nextId := hArt artid art hart
  refine ⟨⟨?_, ?_, ?_⟩, ?_⟩
  · intro j a0 hja
    rw [hAu] at hja
    rw [hNx]
    by_cases hj : j = v
    · rw [if_pos hj] at hja
      obtain rfl := Option.some_injective _ hja
      refine ⟨by omega, ?_⟩
      intro x hx
      rcases List.mem_append.mp hx with hx | hx
      · exact hYb x hx
      · rcases List.mem_singleton.mp hx with rfl; exact hartbnd
    · rw [if_neg hj] at hja
      by_cases hj2 : j = art.author
      · rw [if_pos hj2] at hja
        obtain rfl := Option.some_injective _ hja
        exact ⟨by omega, hXb⟩
      · rw [if_neg hj2] at hja
        exact hA j a0 hja
  · intro j m0 hjm
    rw [hMg] at hjm
    rw [hNx]
    exact hM j m0 hjm
  · intro j art0 hja
    rw [hAr] at hja
    rw [hNx]
    by_cases hj : j = artid
    · omega
    · rw [if_neg hj] at hja
      exact hArt j art0 hja
  · intro i' art' hart'
    rw [hAr] at hart'
    by_cases hi' : i' = artid
    · rw [if_pos hi'] at hart'
      obtain rfl := Option.some_injective _ hart'
      subst hi'
      obtain ⟨-, ⟨mO, hmO⟩, hcA, hcM⟩ := hB i' art hart
      refine ⟨⟨_, by rw [hAu, if_pos rfl]⟩, ⟨mO, by rw [hMg]; exact hmO⟩, ?_, ?_⟩
      · intro j a0 hja
        rw [hAu] at hja
        dsimp only
        by_cases hj : j = v
        · rw [if_pos hj] at hja
          obtain rfl := Option.some_injective _ hja
          dsimp only
          rw [if_pos hj, List.count_append, hY0]
          simp
        · rw [if_neg hj] at hja
          rw [if_neg hj]
          by_cases hj2 : j = art.author
          · rw [if_pos hj2] at hja
            obtain rfl := Option.some_injective _ hja
            exact hX0
          · rw [if_neg hj2] at hja
            have := hcA j a0 hja
            rw [if_neg hj2] at this
            exact this
      · intro j m0 hjm
        rw [hMg] at hjm
        exact hcM j m0 hjm
    · rw [if_neg hi'] at hart'
      obtain ⟨⟨a1, ha1⟩, ⟨m1, hm1⟩, hcA', hcM'⟩ := hB i' art' hart'
      refine ⟨?_, ⟨m1, by rw [hMg]; exact hm1⟩, ?_, ?_⟩
      · by_cases haa : art'.author = v
        · exact ⟨_, by rw [hAu, if_pos haa]⟩
        · by_cases haa2 : art'.author = art.author
          · exact ⟨X, by rw [hAu, if_neg haa, if_pos haa2]⟩
          · exact ⟨a1, by rw [hAu, if_neg haa, if_neg haa2]; exact ha1⟩
      · intro j a0 hja
        rw [hAu] at hja
        by_cases hj : j = v
        · rw [if_pos hj] at hja
          obtain rfl := Option.some_injective _ hja
          dsimp only
          rw [List.count_append, hYi i' art' hi' hart']
          have h1 : List.count i' [artid] = 0 := by
            simp only [List.count_singleton']
            rw [if_neg (fun hh : artid = i' => hi' hh.symm)]
          rw [h1, hj]
          omega
        · rw [if_neg hj] at hja
          by_cases hj2 : j = art.author
          · rw [if_pos hj2] at hja
            obtain rfl := Option.some_injective _ hja
            rw [hXi i' art' hi' hart', hj2]
          · rw [if_neg hj2] at hja
            exact hcA' j a0 hja
      · intro j m0 hjm
        rw [hMg] at hjm
        exact hcM' j m0 hjm

theorem StateInv.setAuthor (s : State) (h : StateInv s) (artid v : Nat) :
    StateInv (Article.setAuthor s artid v).2 := by
  obtain ⟨⟨hA, hM, hArt⟩, hB⟩ := h
  have hkeep : StateInv s := ⟨⟨hA, hM, hArt⟩, hB⟩
  cases hart : s.articles artid with
  | none =>
      have hres : (Article.setAuthor s artid v).2 = s := by
        simp [Article.setAuthor, hart]
      rw [hres]; exact hkeep
  | some art =>
    cases hv : s.authors v with
    | none =>
        have hres : (Article.setAuthor s artid v).2 = s := by
          simp [Article.setAuthor, hart, hv]
        rw [hres]; exact hkeep
    | some aNew =>
      obtain ⟨⟨aOld, haOld⟩, ⟨mO, hmO⟩, hcA, hcM⟩ := hB artid art hart
      have honce : aOld.articles.count artid = 1 := by
        simpa using hcA art.author aOld haOld
      have hmem : artid ∈ aOld.articles := List.count_pos_iff.mp (by omega)
      have heraseSub : ∀ x ∈ aOld.articles.erase artid, x < s.nextId :=
        fun x hx => (hA _ _ haOld).2 x (List.mem_of_mem_erase hx)
      have hrem : authorRemoveIfPresent s art.author artid
          = putAuthor s art.author
              { name := aOld.name, articles := aOld.articles.erase artid } := by
        simp [authorRemoveIfPresent, haOld, hmem]
      have hstep : (Article.setAuthor s artid v).2
          = authorAppend (putArticle (putAuthor s art.author
              { name := aOld.name, articles := aOld.articles.erase artid }) artid
              { title := art.title, author := v, magazine := art.magazine }) v artid := by
        simp only [Article.setAuthor, hart, hv, hrem]
      have hX0 : (aOld.articles.erase artid).count artid = 0 := by
        rw [List.count_erase_self, honce]
      have hXi : ∀ i' art', i' ≠ artid → s.articles i' = some art' →
          (aOld.articles.erase artid).count i'
            = if art.author = art'.author then 1 else 0 := by
        intro i' art' hi' hart'
        rw [List.count_erase_of_ne hi']
        exact (hB i' art' hart').2.2.1 art.author aOld haOld
      by_cases hvo : v = art.author
      · have hlook : (putArticle (putAuthor s art.author
            { name := aOld.name, articles := aOld.articles.erase artid }) artid
            { title := art.title, author := v, magazine := art.magazine }).authors v
            = some { name := aOld.name, articles := aOld.articles.erase artid } := by
          rw [putArticle_authors, putAuthor_authors, if_pos hvo]
        have h2 : (Article.setAuthor s artid v).2
            = putAuthor (putArticle (putAuthor s art.author
                { name := aOld.name, articles := aOld.articles.erase artid }) artid
                { title := art.title, author := v, magazine := art.magazine }) v
                { name := aOld.name,
                  articles := (aOld.articles.erase artid) ++ [artid] } := by
          rw [hstep]
          unfold authorAppend
          rw [hlook]
        refine inv_core_setAuthor s _ artid v art
          { name := aOld.name, articles := aOld.articles.erase artid }
          { name := aOld.name, articles := aOld.articles.erase artid }
          hA hM hArt hB hart ?_ ?_ ?_ ?_ hX0 hXi heraseSub
          ((hA _ _ haOld).1) hX0
          ?_ heraseSub (hvo ▸ (hA _ _ haOld).1)
        · intro j
          rw [h2, putAuthor_authors, putArticle_authors, putAuthor_authors]
        · intro j
          rw [h2]
          show (putArticle (putAuthor s art.author _) artid _).articles j = _
          rw [putArticle_articles, putAuthor_articles]
        · rw [h2, putAuthor_magazines, putArticle_magazines, putAuthor_magazines]
        · rw [h2, putAuthor_nextId, putArticle_nextId, putAuthor_nextId]
        · intro i' art' hi' hart'
          show (aOld.articles.erase artid).count i' = _
          rw [List.count_erase_of_ne hi', hvo]
          exact (hB i' art' hart').2.2.1 art.author aOld haOld
      · have hlook : (putArticle (putAuthor s art.author
            { name := aOld.name, articles := aOld.articles.erase artid }) artid
            { title := art.title, author := v, magazine := art.magazine }).authors v
            = some aNew := by
          rw [putArticle_authors, putAuthor_authors, if_neg hvo]
          exact hv
        have h2 : (Article.setAuthor s artid v).2
            = putAuthor (putArticle (putAuthor s art.author
                { name := aOld.name, articles := aOld.articles.erase artid }) artid
                { title := art.title, author := v, magazine := art.magazine }) v
                { name := aNew.name, articles := aNew.articles ++ [artid] } := by
          rw [hstep]
          unfold authorAppend
          rw [hlook]
        refine inv_core_setAuthor s _ artid v art
          { name := aOld.name, articles := aOld.articles.erase artid } aNew
          hA hM hArt hB hart ?_ ?_ ?_ ?_ hX0 hXi heraseSub
          ((hA _ _ haOld).1) ?_ ?_ ((hA _ _ hv).2) ((hA _ _ hv).1)
        · intro j
          rw [h2, putAuthor_authors, putArticle_authors, putAuthor_authors]
        · intro j
          rw [h2]
          show (putArticle (putAuthor s art.author _) artid _).articles j = _
          rw [putArticle_articles, putAuthor_articles]
        · rw [h2, putAuthor_magazines, putArticle_magazines, putAuthor_magazines]
        · rw [h2, putAuthor_nextId, putArticle_nextId, putAuthor_nextId]
        · have := hcA v aNew hv
          rw [if_neg hvo] at this
          exact this
        · intro i' art' hi' hart'
          exact (hB i' art' hart').2.2.1 v aNew hv

/-- Core preservation argument for the magazine setter, symmetric to
`inv_core_setAuthor`. -/
theorem inv_core_setMagazine (s sF : State) (artid v : Nat) (art : Article)
    (X Y : Magazine)
    (hA : ∀ i a, s.authors i = some a → i < s.nextId ∧ ∀ x ∈ a.articles, x < s.nextId)
    (hM : ∀ i m, s.magazines i = some m → i < s.nextId ∧ ∀ x ∈ m.articles, x < s.nextId)
    (hArt : ∀ i a, s.articles i = some a → i < s.nextId)
    (hB : BackRefConsistent s)
    (hart : s.articles artid = some art)
    (hMgF : ∀ j, sF.magazines j
        = if j = v then some { name := Y.name, category := Y.category,
                               articles := Y.articles ++ [artid] }
          else if j = art.magazine then some X
          else s.magazines j)
    (hAr : ∀ j, sF.articles j
        = if j = artid
          then some { title := art.title, author := art.author, magazine := v }
          else s.articles j)
    (hAuF : sF.authors = s.authors) (hNx : sF.nextId = s.nextId)
    (hX0 : X.articles.count artid = 0)
    (hXi : ∀ i' art', i' ≠ artid → s.articles i' = some art' →
        X.articles.count i' = if art.magazine = art'.magazine then 1 else 0)
    (hXb : ∀ x ∈ X.articles, x < s.nextId)
    (hXlt : art.magazine < s.nextId)
    (hY0 : Y.articles.count artid = 0)
    (hYi : ∀ i' art', i' ≠ artid → s.articles i' = some art' →
        Y.articles.count i' = if v = art'.magazine then 1 else 0)
    (hYb : ∀ x ∈ Y.articles, x < s.nextId)
    (hvlt : v < s.nextId) :
    StateInv sF := by
  have hartbnd : artid < s.nextId := hArt artid art hart
  refine ⟨⟨?_, ?_, ?_⟩, ?_⟩
  · intro j a0 hja
    rw [hAuF] at hja
    rw [hNx]
    exact hA j a0 hja
  · intro j m0 hjm
    rw [hMgF] at hjm
    rw [hNx]
    by_cases hj : j = v
    · rw [if_pos hj] at hjm
      obtain rfl := Option.some_injective _ hjm
      refine ⟨by omega, ?_⟩
      intro x hx
      rcases List.mem_append.mp hx with hx | hx
      · exact hYb x hx
      · rcases List.mem_singleton.mp hx with rfl; exact hartbnd
    · rw [if_neg hj] at hjm
      by_cases hj2 : j = art.magazine
      · rw [if_pos hj2] at hjm
        obtain rfl := Option.some_injective _ hjm
        exact ⟨by omega, hXb⟩
      · rw [if_neg hj2] at hjm
        exact hM j m0 hjm
  · intro j art0 hja
    rw [hAr] at hja
    rw [hNx]
    by_cases hj : j = artid
    · omega
    · rw [if_neg hj] at hja
      exact hArt j art0 hja
  · intro i' art' hart'
    rw [hAr] at hart'
    by_cases hi' : i' = artid
    · rw [if_pos hi'] at hart'
      obtain rfl := Option.some_injective _ hart'
      subst hi'
      obtain ⟨⟨aO, haO⟩, -, hcA, hcM⟩ := hB i' art hart
      refine ⟨⟨aO, by rw [hAuF]; exact haO⟩, ⟨_, by rw [hMgF, if_pos rfl]⟩, ?_, ?_⟩
      · intro j a0 hja
        rw [hAuF] at hja
        exact hcA j a0 hja
      · intro j m0 hjm
        rw [hMgF] at hjm
        dsimp only
        by_cases hj : j = v
        · rw [if_pos hj] at hjm
          obtain rfl := Option.some_injective _ hjm
          dsimp only
          rw [if_pos hj, List.count_append, hY0]
          simp
        · rw [if_neg hj] at hjm
          rw [if_neg hj]
          by_cases hj2 : j = art.magazine
          · rw [if_pos hj2] at hjm
            obtain rfl := Option.some_injective _ hjm
            exact hX0
          · rw [if_neg hj2] at hjm
            have := hcM j m0 hjm
            rw [if_neg hj2] at this
            exact this
    · rw [if_neg hi'] at hart'
      obtain ⟨⟨a1, ha1⟩, ⟨m1, hm1⟩, hcA', hcM'⟩ := hB i' art' hart'
      refine ⟨⟨a1, by rw [hAuF]; exact ha1⟩, ?_, ?_, ?_⟩
      · by_cases hmm : art'.magazine = v
        · exact ⟨_, by rw [hMgF, if_pos hmm]⟩
        · by_cases hmm2 : art'.magazine = art.magazine
          · exact ⟨X, by rw [hMgF, if_neg hmm, if_pos hmm2]⟩
          · exact ⟨m1, by rw [hMgF, if_neg hmm, if_neg hmm2]; exact hm1⟩
      · intro j a0 hja
        rw [hAuF] at hja
        exact hcA' j a0 hja
      · intro j m0 hjm
        rw [hMgF] at hjm
        by_cases hj : j = v
        · rw [if_pos hj] at hjm
          obtain rfl := Option.some_injective _ hjm
          dsimp only
          rw [List.count_append, hYi i' art' hi' hart']
          have h1 : List.count i' [artid] = 0 := by
            simp only [List.count_singleton']
            rw [if_neg (fun hh : artid = i' => hi' hh.symm)]
          rw [h1, hj]
          omega
        · rw [if_neg hj] at hjm
          by_cases hj2 : j = art.magazine
          · rw [if_pos hj2] at hjm
            obtain rfl := Option.some_injective _ hjm
            rw [hXi i' art' hi' hart', hj2]
          · rw [if_neg hj2] at hjm
            exact hcM' j m0 hjm

theorem StateInv.setMagazine (s : State) (h : StateInv s) (artid v : Nat) :
    StateInv (Article.setMagazine s artid v).2 := by
  obtain ⟨⟨hA, hM, hArt⟩, hB⟩ := h
  have hkeep : StateInv s := ⟨⟨hA, hM, hArt⟩, hB⟩
  cases hart : s.articles artid with
  | none =>
      have hres : (Article.setMagazine s artid v).2 = s := by
        simp [Article.setMagazine, hart]
      rw [hres]; exact hkeep
  | some art =>
    cases hv : s.magazines v with
    | none =>
        have hres : (Article.setMagazine s artid v).2 = s := by
          simp [Article.setMagazine, hart, hv]
        rw [hres]; exact hkeep
    | some mNew =>
      obtain ⟨⟨aO, haO⟩, ⟨mOld, hmOld⟩, hcA, hcM⟩ := hB artid art hart
      have honce : mOld.articles.count artid = 1 := by
        simpa using hcM art.magazine mOld hmOld
      have hmem : artid ∈ mOld.articles := List.count_pos_iff.mp (by omega)
      have heraseSub : ∀ x ∈ mOld.articles.erase artid, x < s.nextId :=
        fun x hx => (hM _ _ hmOld).2 x (List.mem_of_mem_erase hx)
      have hrem : magazineRemoveIfPresent s art.magazine artid
          = putMagazine s art.magazine
              { name := mOld.name, category := mOld.category,
                articles := mOld.articles.erase artid } := by
        simp [magazineRemoveIfPresent, hmOld, hmem]
      have hstep : (Article.setMagazine s artid v).2
          = magazineAppend (putArticle (putMagazine s art.magazine
              { name := mOld.name, category := mOld.category,
                articles := mOld.articles.erase artid }) artid
              { title := art.title, author := art.author, magazine := v }) v artid := by
        simp only [Article.setMagazine, hart, hv, hrem]
      have hX0 : (mOld.articles.erase artid).count artid = 0 := by
        rw [List.count_erase_self, honce]
      have hXi : ∀ i' art', i' ≠ artid → s.articles i' = some art' →
          (mOld.articles.erase artid).count i'
            = if art.magazine = art'.magazine then 1 else 0 := by
        intro i' art' hi' hart'
        rw [List.count_erase_of_ne hi']
        exact (hB i' art' hart').2.2.2 art.magazine mOld hmOld
      by_cases hvo : v = art.magazine
      · have hlook : (putArticle (putMagazine s art.magazine
            { name := mOld.name, category := mOld.category,
              articles := mOld.articles.erase artid }) artid
            { title := art.title, author := art.author, magazine := v }).magazines v
            = some { name := mOld.name, category := mOld.category,
                     articles := mOld.articles.erase artid } := by
          rw [putArticle_magazines, putMagazine_magazines, if_pos hvo]
        have h2 : (Article.setMagazine s artid v).2
            = putMagazine (putArticle (putMagazine s art.magazine
                { name := mOld.name, category := mOld.category,
                  articles := mOld.articles.erase artid }) artid
                { title := art.title, author := art.author, magazine := v }) v
                { name := mOld.name, category := mOld.category,
                  articles := (mOld.articles.erase artid) ++ [artid] } := by
          rw [hstep]
          unfold magazineAppend
          rw [hlook]
        refine inv_core_setMagazine s _ artid v art
          { name := mOld.name, category := mOld.category,
            articles := mOld.articles.erase artid }
          { name := mOld.name, category := mOld.category,
            articles := mOld.articles.erase artid }
          hA hM hArt hB hart ?_ ?_ ?_ ?_ hX0 hXi heraseSub
          ((hM _ _ hmOld).1) hX0
          ?_ heraseSub (hvo ▸ (hM _ _ hmOld).1)
        · intro j
          rw [h2, putMagazine_magazines, putArticle_magazines, putMagazine_magazines]
        · intro j
          rw [h2]
          show (putArticle (putMagazine s art.magazine _) artid _).articles j = _
          rw [putArticle_articles, putMagazine_articles]
        · rw [h2, putMagazine_authors, putArticle_authors, putMagazine_authors]
        · rw [h2, putMagazine_nextId, putArticle_nextId, putMagazine_nextId]
        · intro i' art' hi' hart'
          show (mOld.articles.erase artid).count i' = _
          rw [List.count_erase_of_ne hi', hvo]
          exact (hB i' art' hart').2.2.2 art.magazine mOld hmOld
      · have hlook : (putArticle (putMagazine s art.magazine
            { name := mOld.name, category := mOld.category,
              articles := mOld.articles.erase artid }) artid
            { title := art.title, author := art.author, magazine := v }).magazines v
            = some mNew := by
          rw [putArticle_magazines, putMagazine_magazines, if_neg hvo]
          exact hv
        have h2 : (Article.setMagazine s artid v).2
            = putMagazine (putArticle (putMagazine s art.magazine
                { name := mOld.name, category := mOld.category,
                  articles := mOld.articles.erase artid }) artid
                { title := art.title, author := art.author, magazine := v }) v
                { name := mNew.name, category := mNew.category,
                  articles := mNew.articles ++ [artid] } := by
          rw [hstep]
          unfold magazineAppend
          rw [hlook]
        refine inv_core_setMagazine s _ artid v art
          { name := mOld.name, category := mOld.category,
            articles := mOld.articles.erase artid } mNew
          hA hM hArt hB hart ?_ ?_ ?_ ?_ hX0 hXi heraseSub
          ((hM _ _ hmOld).1) ?_ ?_ ((hM _ _ hv).2) ((hM _ _ hv).1)
        · intro j
          rw [h2, putMagazine_magazines, putArticle_magazines, putMagazine_magazines]
        · intro j
          rw [h2]
          show (putArticle (putMagazine s art.magazine _) artid _).articles j = _
          rw [putArticle_articles, putMagazine_articles]
        · rw [h2, putMagazine_authors, putArticle_authors, putMagazine_authors]
        · rw [h2, putMagazine_nextId, putArticle_nextId, putMagazine_nextId]
        · have := hcM v mNew hv
          rw [if_neg hvo] at this
          exact this
        · intro i' art' hi' hart'
          exact (hB i' art' hart').2.2.2 v mNew hv

/-- Replacing a magazine object by one with the same articles list (as the
name and category setters do) preserves the invariant. -/
theorem StateInv.putMagazineSameArticles (s : State) (h : StateInv s) (mid : Nat)
    (m m' : Magazine) (hm : s.magazines mid = some m)
    (harts : m'.articles = m.articles) :
    StateInv (putMagazine s mid m') := by
  obtain ⟨⟨hA, hM, hArt⟩, hB⟩ := h
  refine ⟨⟨?_, ?_, ?_⟩, ?_⟩
  · intro j a0 hja
    rw [putMagazine_authors] at hja
    rw [putMagazine_nextId]
    exact hA j a0 hja
  · intro j m0 hjm
    rw [putMagazine_magazines] at hjm
    by_cases hj : j = mid
    · rw [if_pos hj] at hjm
      obtain rfl := Option.some_injective _ hjm
      rw [harts]
      exact hj ▸ hM mid m hm
    · rw [if_neg hj] at hjm
      exact hM j m0 hjm
  · intro j art0 hja
    exact hArt j art0 hja
  · intro i art hart
    rw [putMagazine_articles] at hart
    obtain ⟨⟨a1, ha1⟩, ⟨m1, hm1⟩, hcA, hcM⟩ := hB i art hart
    refine ⟨⟨a1, ha1⟩, ?_, hcA, ?_⟩
    · by_cases hmm : art.magazine = mid
      · exact ⟨m', by rw [putMagazine_magazines, if_pos hmm]⟩
      · exact ⟨m1, by rw [putMagazine_magazines, if_neg hmm]; exact hm1⟩
    · intro j m0 hjm
      rw [putMagazine_magazines] at hjm
      by_cases hj : j = mid
      · rw [if_pos hj] at hjm
        obtain rfl := Option.some_injective _ hjm
        rw [harts]
        exact hj ▸ hcM mid m hm
      · rw [if_neg hj] at hjm
        exact hcM j m0 hjm

theorem StateInv.setMagName (s : State) (h : StateInv s) (mid : Nat) (v : PyVal) :
    StateInv (Magazine.setName s mid v).2 := by
  cases hm : s.magazines mid with
  | none =>
      have hres : (Magazine.setName s mid v).2 = s := by simp [Magazine.setName, hm]
      rw [hres]; exact h
  | some m =>
      cases v with
      | str n =>
          by_cases hlen : (2 ≤ n.length && n.length ≤ 16) = true
          · have hres : (Magazine.setName s mid (.str n)).2
                = putMagazine s mid
                    { name := n, category := m.category, articles := m.articles } := by
              simp [Magazine.setName, hm, hlen]
            rw [hres]
            exact StateInv.putMagazineSameArticles s h mid m _ hm rfl
          · have hres : (Magazine.setName s mid (.str n)).2 = s := by
              simp only [Magazine.setName, hm]
              rw [if_neg hlen]
            rw [hres]; exact h
      | intVal k => have hres : (Magazine.setName s mid (.intVal k)).2 = s := by
                      simp [Magazine.setName, hm]
                    rw [hres]; exact h
      | noneVal => have hres : (Magazine.setName s mid .noneVal).2 = s := by
                     simp [Magazine.setName, hm]
                   rw [hres]; exact h
      | boolVal b => have hres : (Magazine.setName s mid (.boolVal b)).2 = s := by
                       simp [Magazine.setName, hm]
                     rw [hres]; exact h

theorem StateInv.setMagCategory (s : State) (h : StateInv s) (mid : Nat) (v : PyVal) :
    StateInv (Magazine.setCategory s mid v).2 := by
  cases hm : s.magazines mid with
  | none =>
      have hres : (Magazine.setCategory s mid v).2 = s := by
        simp [Magazine.setCategory, hm]
      rw [hres]; exact h
  | some m =>
      cases v with
      | str c =>
          by_cases hlen : (c.length != 0) = true
          · have hres : (Magazine.setCategory s mid (.str c)).2
                = putMagazine s mid
                    { name := m.name, category := c, articles := m.articles } := by
              simp [Magazine.setCategory, hm, hlen]
            rw [hres]
            exact StateInv.putMagazineSameArticles s h mid m _ hm rfl
          · have hres : (Magazine.setCategory s mid (.str c)).2 = s := by
              simp only [Magazine.setCategory, hm]
              rw [if_neg hlen]
            rw [hres]; exact h
      | intVal k => have hres : (Magazine.setCategory s mid (.intVal k)).2 = s := by
                      simp [Magazine.setCategory, hm]
                    rw [hres]; exact h
      | noneVal => have hres : (Magazine.setCategory s mid .noneVal).2 = s := by
                     simp [Magazine.setCategory, hm]
                   rw [hres]; exact h
      | boolVal b => have hres : (Magazine.setCategory s mid (.boolVal b)).2 = s := by
                       simp [Magazine.setCategory, hm]
                     rw [hres]; exact h

/-- Every operation preserves the invariant. -/
theorem StateInv.step (s : State) (h : StateInv s) (op : Op) :
    StateInv (applyOp s op).2 := by
  cases op with
  | newAuthor name => exact StateInv.authorInit s h name
  | newMagazine name category => exact StateInv.magazineInit s h name category
  | newArticle author magazine title => exact StateInv.articleInit s h author magazine title
  | setArticleAuthor artid v => exact StateInv.setAuthor s h artid v
  | setArticleMagazine artid v => exact StateInv.setMagazine s h artid v
  | setArticleTitle artid v => exact h
  | setAuthorName aid v => exact h
  | setMagazineName mid v => exact StateInv.setMagName s h mid v
  | setMagazineCategory mid v => exact StateInv.setMagCategory s h mid v

/-- C1: every reachable state — the result of any sequence of
constructions and setter calls starting from the empty state — satisfies
the invariant: each Article references an existing Author and Magazine and
appears exactly once in the back-reference list of its current Author and
current Magazine, and in no other author's or magazine's list. -/
theorem run_back_ref_invariant (ops : List Op) : StateInv (run ops) := by
  suffices hgen : ∀ s, StateInv s →
      StateInv (ops.foldl (fun s op => (applyOp s op).2) s) by
    exact hgen initState StateInv.ofInit
  induction ops with
  | nil => intro s hs; exact hs
  | cons op rest ih =>
      intro s hs
      exact ih _ (StateInv.step s hs op)
